import Mathlib

/-!
# Verification of the BigBFT benchmark engine (`benchmark.go`)

A shallow embedding of the concurrent benchmark engine: the distribution-driven
key generator `Benchmark.next`, the `Load` and `Run` orchestration, the worker
loop `Benchmark.worker`, and the latency collector `Benchmark.collect`.

Modelling conventions:
* Go `int` values are Lean `Int`; Go's `%` on `int` truncates toward zero, so it
  is `Int.tmod`, and `% 0` is a runtime panic, modelled by `goMod` returning
  `none`.
* Random draws (`rand.Intn`, `rand.NormFloat64`, `zipf.Uint64`, ...) are
  explicit inputs collected in the `Draws` structure; floating-point
  arithmetic only ever enters the key computation through the already
  truncated integers, which is why the draws are recorded post-truncation.
* The two range-folding `for` loops of the `normal` branch are written with an
  explicit fuel argument; `Outcome.noFuel` means the loop ran longer than the
  supplied bound, and divergence is proved as `noFuel` for every fuel value.
* `log.Fatalf` (process termination on an unknown distribution name) is
  `Outcome.fatal`; a runtime panic (integer modulo by zero) is `Outcome.crash`.
-/

namespace BigBFT

/-- The benchmark configuration fields that the key generator, `Load` and the
worker consult (`Bconfig` in the source).  The timing fields `T`, `N`,
`Concurrency` and the purely statistical float parameters `Mu`, `Sigma`,
`ZipfianS`, `ZipfianV`, `Lambda`, `Size` enter the embedding as explicit
parameters or through the recorded random draws instead. -/
structure Bconfig where
  K : Int
  W : Rat
  Throttle : Int
  Distribution : String
  Conflicts : Int
  Min : Int
deriving DecidableEq, Repr

/-- One call's worth of random draws, recorded after Go's truncating `int`
conversions.  `intnK` stands for `rand.Intn(b.K)` (in `[0, K)` whenever
`K ≥ 1`), `intn100` for `rand.Intn(100)` (in `[0, 100)`), `normInt` for
`int(rand.NormFloat64()*b.Sigma + b.Mu)` (any integer), `zipfInt` for
`int(b.zipf.Uint64())` and `expInt` for `int(rand.ExpFloat64() / b.Lambda)`. -/
structure Draws where
  intnK : Int
  intn100 : Int
  normInt : Int
  zipfInt : Int
  expInt : Int
deriving DecidableEq, Repr

/-- Go's `%` on `int`: truncated toward zero (`Int.tmod`); modulo by zero is a
runtime panic, modelled as `none`. -/
def goMod (a b : Int) : Option Int :=
  if b = 0 then none else some (Int.tmod a b)

/-- The first folding loop of the `normal` branch:
`for key < 0 { key += b.K }`, with an explicit fuel bound. -/
def foldAdd (K : Int) : Nat → Int → Option Int
  | 0, key => if key < 0 then none else some key
  | fuel + 1, key => if key < 0 then foldAdd K fuel (key + K) else some key

/-- The second folding loop of the `normal` branch:
`for key > b.K { key -= b.K }`, with an explicit fuel bound. -/
def foldSub (K : Int) : Nat → Int → Option Int
  | 0, key => if key > K then none else some key
  | fuel + 1, key => if key > K then foldSub K fuel (key - K) else some key

/-- Possible outcomes of one `next()` call. -/
inductive Outcome (α : Type) where
  | ok : α → Outcome α
  | crash : Outcome α
  | fatal : Outcome α
  | noFuel : Outcome α
deriving DecidableEq, Repr

/-- `NewBenchmark` initialises `b.counter = -1`. -/
def initCounter : Int := -1

/-- `NewBenchmark` initialises `b.globalCouner = -1`. -/
def initGlobalCounter : Int := -1

/-- `Benchmark.next`: produces the next key from the configured distribution.
The mutable field `b.counter` is threaded explicitly; the result is the pair
(key, new counter).  The `switch b.Distribution` of the source is the
corresponding chain of string comparisons; note that the source's case label
for the Zipf branch is the literal `"zipfan"`. -/
def next (c : Bconfig) (counter : Int) (d : Draws) (fuel : Nat) :
    Outcome (Int × Int) :=
  if c.Distribution = "order" then
    match goMod (counter + 1) c.K with
    | none => .crash
    | some m => .ok (m + c.Min, m)
  else if c.Distribution = "uniform" then
    if c.K ≤ 0 then .crash  -- rand.Intn panics when its argument is ≤ 0
    else .ok (d.intnK + c.Min, counter)
  else if c.Distribution = "conflict" then
    if d.intn100 < c.Conflicts then .ok (0, counter)
    else
      match goMod (counter + 1) c.K with
      | none => .crash
      | some m => .ok (m + c.Min, m)
  else if c.Distribution = "normal" then
    match foldAdd c.K fuel d.normInt with
    | none => .noFuel
    | some k1 =>
      match foldSub c.K fuel k1 with
      | none => .noFuel
      | some k2 => .ok (k2, counter)
  else if c.Distribution = "zipfan" then
    .ok (d.zipfInt, counter)
  else if c.Distribution = "exponential" then
    .ok (d.expInt, counter)
  else
    .fatal

/-! ## `Benchmark.Load` and `Benchmark.Run`: what the orchestrator submits -/

/-- `Load` begins with `b.W = 1.0; b.Throttle = 0`: the resulting
configuration. -/
def loadConfig (c : Bconfig) : Bconfig :=
  ⟨c.K, 1, 0, c.Distribution, c.Conflicts, c.Min⟩

/-- The keys `Load` pushes onto the `keys` channel:
`for i := b.Min; i < b.Min+b.K; i++ { keys <- i }`. -/
def loadSubmittedKeys (c : Bconfig) : List Int :=
  (List.range c.K.toNat).map (fun i : Nat => c.Min + (i : Int))

/-- The values `Load` pushes onto the `globalCouner` channel, one per key.
The increment `b.globalCouner++` is commented out in `Load`, so every
iteration sends the initial value `-1`. -/
def loadSeqNums (c : Bconfig) : List Int :=
  List.replicate c.K.toNat initGlobalCounter

/-- The values `Run` pushes onto the `globalCouner` channel: `b.globalCouner`
starts at `-1` and is incremented before each send, so the `i`-th submission
(0-based) carries `i`. -/
def runSeqNums (n : Nat) : List Int :=
  (List.range n).map (fun i : Nat => (i : Int))

/-- The worker's write-ratio test `rand.Float64() < b.W`, with the uniform
draw `u ∈ [0, 1)` made explicit. -/
def takesWritePath (W u : Rat) : Bool :=
  decide (u < W)

/-- The orchestrator-visible actions of `Benchmark.Run`, in program order. -/
inductive Event where
  | submit : Int → Int → Event   -- `keys <- key; globalCouner <- g`
  | waitBarrier : Event          -- `b.wait.Wait()`
  | dbStop : Event               -- `b.db.Stop()`
  | closeKeys : Event            -- `close(keys)`
  | reportStats : Event          -- `stat := Statistic(b.latency)` and the reports
deriving DecidableEq, Repr

/-- The sequence of orchestrator actions in `Benchmark.Run`, given the list of
(key, sequence-number) submissions the generation loop performed.
`timeBased = true` is the `b.T > 0` branch: the timer `break` leaves the loop
and the code proceeds directly to `b.db.Stop()`, `close(keys)` and
`Statistic(b.latency)` — there is no `b.wait.Wait()` on this path.  In the
count-based branch (`b.T ≤ 0`) the loop is followed by `b.wait.Wait()` before
the same epilogue. -/
def runEvents (timeBased : Bool) (subs : List (Int × Int)) : List Event :=
  (subs.map fun p => Event.submit p.1 p.2) ++
    (if timeBased then [] else [Event.waitBarrier]) ++
    [Event.dbStop, Event.closeKeys, Event.reportStats]

/-! ## `Benchmark.worker` and `Benchmark.collect`

The worker declares `var err error` once, outside its key loop, and assigns it
only on the write path (`err = b.db.Write(...)`).  After each operation it
tests this `err`: when nil it sends the latency on the `result` channel
(which `collect` answers with one `b.wait.Done()`), when non-nil it sets
`op.end = math.MaxInt64` and logs the error, sending nothing. -/

/-- One unit of work as a worker sees it: the outcome of the write-ratio coin
flip, and — when it is a write — whether `b.db.Write` returned a non-nil
error. -/
structure WorkerOp where
  isWrite : Bool
  writeFails : Bool
deriving DecidableEq, Repr

/-- What the worker's epilogue did for one operation. -/
structure OpRecord where
  /-- `op.end` was set to the sentinel `math.MaxInt64` (error branch). -/
  endSentinel : Bool
  /-- a latency was sent on `result`, hence `collect` will run `wait.Done()`
  exactly once for this operation. -/
  sentLatency : Bool
  /-- `log.Error(err)` ran for this operation. -/
  loggedError : Bool
deriving DecidableEq, Repr

/-- The value of the worker-local `err` variable after processing one
operation: reassigned on the write path, untouched on the read path. -/
def errAfterOp (err : Bool) (o : WorkerOp) : Bool :=
  if o.isWrite then o.writeFails else err

/-- The value of `err` after a whole sequence of operations (initially nil,
i.e. `false`). -/
def errAfterOps (err : Bool) (ops : List WorkerOp) : Bool :=
  ops.foldl errAfterOp err

/-- One worker's epilogue records for a sequence of received operations,
threading the loop-external `err` variable. -/
def workerRun (err : Bool) : List WorkerOp → List OpRecord
  | [] => []
  | o :: rest =>
    let e := errAfterOp err o
    ⟨e, !e, e⟩ :: workerRun e rest

/-- `Benchmark.collect` appends each received latency and calls
`b.wait.Done()` once per sample, so the number of barrier resolutions equals
the number of operations that actually sent a latency. -/
def barrierResolutions (recs : List OpRecord) : Nat :=
  (recs.filter (fun r => r.sentLatency)).length

/-! ## The key / sequence-number rendezvous of `Benchmark.Run`

`Run` submits key `i` on the buffered `keys` channel (capacity
`b.Concurrency`) and then blocks sending the matching counter value on the
unbuffered `globalCouner` channel.  A worker that dequeued a key and took the
write path evaluates `b.db.Write(k, v, <-globalCouner)`, receiving from the
rendezvous channel before the external call; a worker on the read path never
touches `globalCouner`.  The transition system below models exactly these
interactions.  Workers are not bounded and post-`Write` bookkeeping is
collapsed into returning to the dequeue loop: both only add interleavings, so
any safety property of this system holds of the real pool of `Concurrency`
workers. -/

/-- One invocation of the external `b.db.Write(key, v, seq)`: the generation
index of the key instance, the key value passed, and the sequence number the
worker received from the rendezvous channel. -/
structure WriteCall where
  idx : Nat
  key : Int
  seq : Int
deriving DecidableEq, Repr

/-- Global state of the `Run` submission pipeline.  `sent` counts keys pushed
onto `keys` (the `i`-th submission, 0-based, is key value `keyOf i` with
sequence number `i`); `pending` holds while the orchestrator is blocked
sending `sent - 1` on the unbuffered `globalCouner`; `queue` is the FIFO
content of `keys` (as generation indices); `writers` are the indices dequeued
by workers that took the write path and have not yet received their sequence
number; `writes` are the `Write` invocations performed so far. -/
structure RunState where
  sent : Nat
  pending : Bool
  queue : List Nat
  writers : List Nat
  writes : List WriteCall
deriving DecidableEq, Repr

/-- The state before the generation loop starts. -/
def initRunState : RunState := ⟨0, false, [], [], []⟩

/-- Interleaved small steps of the orchestrator and the workers during `Run`,
for a `keys` channel of capacity `C` and key values `keyOf`. -/
inductive RunStep (C : Nat) (keyOf : Nat → Int) : RunState → RunState → Prop
  /-- the orchestrator performs `keys <- b.next()` (needs buffer room) and
  reaches the blocking `globalCouner <- b.globalCouner`. -/
  | sendKey (n : Nat) (q ws : List Nat) (wr : List WriteCall)
      (hq : q.length < C) :
      RunStep C keyOf ⟨n, false, q, ws, wr⟩ ⟨n + 1, true, q ++ [n], ws, wr⟩
  /-- a worker dequeues the front key and its `rand.Float64() < b.W` test
  chooses the write path. -/
  | dequeueWrite (n : Nat) (p : Bool) (i : Nat) (rest ws : List Nat)
      (wr : List WriteCall) :
      RunStep C keyOf ⟨n, p, i :: rest, ws, wr⟩ ⟨n, p, rest, ws ++ [i], wr⟩
  /-- a worker dequeues the front key and takes the read no-op path, which
  never receives from `globalCouner`. -/
  | dequeueRead (n : Nat) (p : Bool) (i : Nat) (rest ws : List Nat)
      (wr : List WriteCall) :
      RunStep C keyOf ⟨n, p, i :: rest, ws, wr⟩ ⟨n, p, rest, ws, wr⟩
  /-- the rendezvous: a write-path worker holding key index `i` receives the
  pending counter value `n - 1` and invokes `Write(keyOf i, v, n - 1)`. -/
  | rendezvous (n : Nat) (q : List Nat) (i : Nat) (ws : List Nat)
      (wr : List WriteCall) (hi : i ∈ ws) :
      RunStep C keyOf ⟨n, true, q, ws, wr⟩
        ⟨n, false, q, ws.erase i, wr ++ [⟨i, keyOf i, (n : Int) - 1⟩]⟩

/-- States the `Run` pipeline can actually reach. -/
def ReachableRun (C : Nat) (keyOf : Nat → Int) (s : RunState) : Prop :=
  Relation.ReflTransGen (RunStep C keyOf) initRunState s

/-- The inductive invariant of the pipeline: the `keys` buffer and the set of
sequence-awaiting write-path workers each hold at most the most recently
generated index, only while its counter send is pending, and never both at
once; and every `Write` so far received its own index as sequence number. -/
def RunInv (keyOf : Nat → Int) (s : RunState) : Prop :=
  (s.queue = [] ∨
    (1 ≤ s.sent ∧ s.pending = true ∧ s.queue = [s.sent - 1] ∧ s.writers = []))
  ∧ (s.writers = [] ∨
    (1 ≤ s.sent ∧ s.pending = true ∧ s.writers = [s.sent - 1] ∧ s.queue = []))
  ∧ (∀ w ∈ s.writes, w.seq = (w.idx : Int) ∧ w.key = keyOf w.idx)

theorem runInv_init (keyOf : Nat → Int) : RunInv keyOf initRunState := by
  refine ⟨Or.inl rfl, Or.inl rfl, ?_⟩
  intro w hw
  simp [initRunState] at hw

theorem runInv_step {C : Nat} {keyOf : Nat → Int} {s s' : RunState}
    (hstep : RunStep C keyOf s s') (hinv : RunInv keyOf s) :
    RunInv keyOf s' := by
  obtain ⟨hq, hw, hwr⟩ := hinv
  cases hstep with
  | sendKey n q ws wr hlen =>
    dsimp only [RunInv] at hq hw hwr ⊢
    have hq' : q = [] := by
      rcases hq with h | ⟨_, hp, _, _⟩
      · exact h
      · exact absurd hp (by simp)
    have hw' : ws = [] := by
      rcases hw with h | ⟨_, hp, _, _⟩
      · exact h
      · exact absurd hp (by simp)
    subst hq'; subst hw'
    refine ⟨Or.inr ⟨?_, rfl, ?_, rfl⟩, Or.inl rfl, hwr⟩
    · omega
    · simp
  | dequeueWrite n p i rest ws wr =>
    dsimp only [RunInv] at hq hw hwr ⊢
    rcases hq with h | ⟨hn, hp, hqe, hwe⟩
    · exact absurd h (by simp)
    · injection hqe with hi1 hi2
      subst hi1; subst hi2; subst hwe; subst hp
      refine ⟨Or.inl rfl, Or.inr ⟨hn, rfl, ?_, rfl⟩, hwr⟩
      simp
  | dequeueRead n p i rest ws wr =>
    dsimp only [RunInv] at hq hw hwr ⊢
    rcases hq with h | ⟨hn, hp, hqe, hwe⟩
    · exact absurd h (by simp)
    · injection hqe with hi1 hi2
      subst hi2; subst hwe
      exact ⟨Or.inl rfl, Or.inl rfl, hwr⟩
  | rendezvous n q i ws wr hi =>
    dsimp only [RunInv] at hq hw hwr ⊢
    rcases hw with h | ⟨hn, hp, hwe, hqe⟩
    · rw [h] at hi
      exact absurd hi (by simp)
    · subst hqe; subst hwe
      have hi' : i = n - 1 := by simpa using hi
      subst hi'
      refine ⟨Or.inl rfl, Or.inl ?_, ?_⟩
      · simp
      · intro w hmem
        rcases List.mem_append.mp hmem with h | h
        · exact hwr w h
        · have hweq : w = ⟨n - 1, keyOf (n - 1), (n : Int) - 1⟩ := by
            simpa using h
          subst hweq
          refine ⟨?_, rfl⟩
          show (n : Int) - 1 = ((n - 1 : Nat) : Int)
          omega

theorem runInv_reachable {C : Nat} {keyOf : Nat → Int} {s : RunState}
    (h : ReachableRun C keyOf s) : RunInv keyOf s := by
  induction h with
  | refl => exact runInv_init keyOf
  | tail _ hstep ih => exact runInv_step hstep ih

/-! ## Lemmas about the `normal` branch's folding loops -/

theorem foldAdd_some_nonneg {K : Int} {f : Nat} {z k : Int}
    (h : foldAdd K f z = some k) : 0 ≤ k := by
  induction f generalizing z with
  | zero =>
    unfold foldAdd at h
    by_cases hz : z < 0
    · simp [hz] at h
    · simp [hz] at h
      omega
  | succ f ih =>
    unfold foldAdd at h
    by_cases hz : z < 0
    · simp [hz] at h
      exact ih h
    · simp [hz] at h
      omega

theorem foldSub_some_bounds {K : Int} {f : Nat} {z k : Int}
    (hz : 0 ≤ z) (h : foldSub K f z = some k) : 0 ≤ k ∧ k ≤ K := by
  induction f generalizing z with
  | zero =>
    unfold foldSub at h
    by_cases hgt : z > K
    · simp [hgt] at h
    · simp [hgt] at h
      omega
  | succ f ih =>
    unfold foldSub at h
    by_cases hgt : z > K
    · simp [hgt] at h
      have hz' : 0 ≤ z - K := by
        by_cases hK : 0 ≤ K
        · omega
        · omega
      exact ih hz' h
    · simp [hgt] at h
      omega

theorem foldAdd_terminates {K : Int} (hK : 1 ≤ K) :
    ∀ (f : Nat) (z : Int), -z ≤ (f : Int) → ∃ k, foldAdd K f z = some k := by
  intro f
  induction f with
  | zero =>
    intro z hz
    refine ⟨z, ?_⟩
    unfold foldAdd
    have : ¬ z < 0 := by simpa using hz
    simp [this]
  | succ f ih =>
    intro z hz
    by_cases hneg : z < 0
    · obtain ⟨k, hk⟩ := ih (z + K) (by omega)
      exact ⟨k, by unfold foldAdd; simp [hneg, hk]⟩
    · refine ⟨z, ?_⟩
      unfold foldAdd
      simp [hneg]

theorem foldSub_terminates {K : Int} (hK : 1 ≤ K) :
    ∀ (f : Nat) (z : Int), z - K ≤ (f : Int) → ∃ k, foldSub K f z = some k := by
  intro f
  induction f with
  | zero =>
    intro z hz
    refine ⟨z, ?_⟩
    unfold foldSub
    have : ¬ z > K := by simpa using hz
    simp [this]
  | succ f ih =>
    intro z hz
    by_cases hgt : z > K
    · obtain ⟨k, hk⟩ := ih (z - K) (by omega)
      exact ⟨k, by unfold foldSub; simp [hgt, hk]⟩
    · refine ⟨z, ?_⟩
      unfold foldSub
      simp [hgt]

theorem foldAdd_zero_diverges {z : Int} (hz : z < 0) :
    ∀ f : Nat, foldAdd 0 f z = none := by
  intro f
  induction f with
  | zero => unfold foldAdd; simp [hz]
  | succ f ih => unfold foldAdd; simpa [hz] using ih

theorem foldAdd_mono {K : Int} {f : Nat} {z k : Int}
    (h : foldAdd K f z = some k) : ∀ g : Nat, foldAdd K (f + g) z = some k := by
  induction f generalizing z with
  | zero =>
    intro g
    unfold foldAdd at h
    by_cases hz : z < 0
    · simp [hz] at h
    · simp [hz] at h
      subst h
      cases g with
      | zero => unfold foldAdd; simp [hz]
      | succ g => unfold foldAdd; simp [hz]
  | succ f ih =>
    intro g
    unfold foldAdd at h
    by_cases hz : z < 0
    · simp only [if_pos hz] at h
      have hfg : f + 1 + g = (f + g) + 1 := by omega
      rw [hfg]
      unfold foldAdd
      simpa [hz] using ih h g
    · simp [hz] at h
      subst h
      have hfg : f + 1 + g = (f + g) + 1 := by omega
      rw [hfg]
      unfold foldAdd
      simp [hz]

theorem foldSub_mono {K : Int} {f : Nat} {z k : Int}
    (h : foldSub K f z = some k) : ∀ g : Nat, foldSub K (f + g) z = some k := by
  induction f generalizing z with
  | zero =>
    intro g
    unfold foldSub at h
    by_cases hz : z > K
    · simp [hz] at h
    · simp [hz] at h
      subst h
      cases g with
      | zero => unfold foldSub; simp [hz]
      | succ g => unfold foldSub; simp [hz]
  | succ f ih =>
    intro g
    unfold foldSub at h
    by_cases hz : z > K
    · simp only [if_pos hz] at h
      have hfg : f + 1 + g = (f + g) + 1 := by omega
      rw [hfg]
      unfold foldSub
      simpa [hz] using ih h g
    · simp [hz] at h
      subst h
      have hfg : f + 1 + g = (f + g) + 1 := by omega
      rw [hfg]
      unfold foldSub
      simp [hz]

/-- For `K ≥ 1` one fuel budget serves both folding loops of the `normal`
branch: both terminate. -/
theorem foldBoth_terminate {K z : Int} (hK : 1 ≤ K) :
    ∃ (fuel : Nat) (k1 k2 : Int),
      foldAdd K fuel z = some k1 ∧ foldSub K fuel k1 = some k2 := by
  obtain ⟨k1, h1⟩ := foldAdd_terminates hK (-z).toNat z (by omega)
  obtain ⟨k2, h2⟩ := foldSub_terminates hK (k1 - K).toNat k1 (by omega)
  refine ⟨(-z).toNat + (k1 - K).toNat, k1, k2, foldAdd_mono h1 _, ?_⟩
  have h3 := foldSub_mono h2 (-z).toNat
  rwa [Nat.add_comm] at h3

/-! ## Lemmas about the worker's loop-external `err` variable -/

theorem workerRun_append (e : Bool) (l1 l2 : List WorkerOp) :
    workerRun e (l1 ++ l2) = workerRun e l1 ++ workerRun (errAfterOps e l1) l2 := by
  induction l1 generalizing e with
  | nil => simp [workerRun, errAfterOps]
  | cons o rest ih =>
    simp only [List.cons_append, workerRun, errAfterOps, List.foldl_cons,
      List.append_eq]
    rw [ih (errAfterOp e o)]
    rfl

theorem errAfterOps_sticky {ops : List WorkerOp}
    (h : ∀ o ∈ ops, o.isWrite = true → o.writeFails = true) :
    errAfterOps true ops = true := by
  induction ops with
  | nil => rfl
  | cons o rest ih =>
    have ho : errAfterOp true o = true := by
      unfold errAfterOp
      by_cases hw : o.isWrite
      · simp [hw, h o (by simp) hw]
      · simp [hw]
    unfold errAfterOps at *
    rw [List.foldl_cons, ho]
    exact ih (fun o' ho' => h o' (by simp [ho']))

/-! ## The claims -/

/-- Claim C5, counterexample: under the `conflict` distribution the hot branch
returns the fixed key `0`, which lies outside `[Min, Min+K)` whenever
`Min > 0`.  Here `Min = 5`, `K = 3`, `Conflicts = 100` and the draw
`rand.Intn(100) = 0` takes the hot branch: the generated key is `0`, and
`0 ∉ [5, 8)`. -/
theorem claim_C5_counterexample :
    next ⟨3, 1, 0, "conflict", 100, 5⟩ initCounter ⟨0, 0, 0, 0, 0⟩ 0
        = .ok (0, initCounter)
      ∧ ¬ ((5 : Int) ≤ 0 ∧ (0 : Int) < 5 + 3) := by
  exact ⟨rfl, by decide⟩

/-- Claim C5, amended: for any configuration with `K ≥ 1`, any counter state
reachable from initialisation (`counter ≥ -1`) and a uniform draw in
`[0, K)`, a key produced by `next()` under `order` or `uniform` lies in
`[Min, Min+K)`; under `conflict` it is either the fixed hot key `0` or lies
in `[Min, Min+K)`. -/
theorem claim_C5_amended (c : Bconfig) (counter : Int) (d : Draws) (fuel : Nat)
    (k st' : Int) (hK : 1 ≤ c.K) (hctr : -1 ≤ counter)
    (hlo : 0 ≤ d.intnK) (hhi : d.intnK < c.K)
    (hrun : next c counter d fuel = .ok (k, st')) :
    ((c.Distribution = "order" ∨ c.Distribution = "uniform") →
      c.Min ≤ k ∧ k < c.Min + c.K)
    ∧ (c.Distribution = "conflict" →
      k = 0 ∨ (c.Min ≤ k ∧ k < c.Min + c.K)) := by
  have hKne : c.K ≠ 0 := by omega
  have hKpos : 0 < c.K := by omega
  have htmod1 : 0 ≤ (counter + 1).tmod c.K := Int.tmod_nonneg c.K (by omega)
  have htmod2 : (counter + 1).tmod c.K < c.K := Int.tmod_lt_of_pos _ hKpos
  constructor
  · rintro (hdist | hdist)
    · simp [next, hdist, goMod, hKne] at hrun
      omega
    · simp [next, hdist, goMod, show ¬ c.K ≤ 0 by omega] at hrun
      omega
  · intro hdist
    by_cases hc : d.intn100 < c.Conflicts
    · simp [next, hdist, hc] at hrun
      omega
    · simp [next, hdist, hc, goMod, hKne] at hrun
      omega

/-- Claim C5, witness: with `Distribution = "order"`, `K = 3`, `Min = 5`,
the freshly initialised counter and a uniform draw of `1`, the generated key
`5` indeed lies in `[5, 8)`. -/
theorem claim_C5_witness :
    ((("order" : String) = "order" ∨ ("order" : String) = "uniform") →
      (5 : Int) ≤ 5 ∧ (5 : Int) < 5 + 3)
    ∧ ((("order" : String) = "conflict") →
      (5 : Int) = 0 ∨ ((5 : Int) ≤ 5 ∧ (5 : Int) < 5 + 3)) := by
  exact claim_C5_amended ⟨3, 1, 0, "order", 100, 5⟩ initCounter ⟨1, 0, 0, 0, 0⟩
    0 5 0 (by decide) (by decide) (by decide) (by decide) rfl

/-- Claim C6: under the `normal` distribution with `K ≥ 1`, whenever the two
range-folding loops complete, the returned key lies in the closed interval
`[0, K]`. -/
theorem claim_C6_normal_range (c : Bconfig) (counter : Int) (d : Draws)
    (fuel : Nat) (k st' : Int) (hdist : c.Distribution = "normal")
    (_hK : 1 ≤ c.K) (hrun : next c counter d fuel = .ok (k, st')) :
    0 ≤ k ∧ k ≤ c.K := by
  cases h1 : foldAdd c.K fuel d.normInt with
  | none => simp [next, hdist, h1] at hrun
  | some k1 =>
    cases h2 : foldSub c.K fuel k1 with
    | none => simp [next, hdist, h1, h2] at hrun
    | some k2 =>
      simp [next, hdist, h1, h2] at hrun
      have hb := foldSub_some_bounds (foldAdd_some_nonneg h1) h2
      omega

/-- Claim C6, witness: `K = 5`, draw `-7`: the folds produce `-7 → -2 → 3`,
then `3 ≤ 5` stops the second loop, and `3 ∈ [0, 5]`. -/
theorem claim_C6_witness : (0 : Int) ≤ 3 ∧ (3 : Int) ≤ 5 := by
  exact claim_C6_normal_range ⟨5, 1, 0, "normal", 100, 0⟩ initCounter
    ⟨0, 0, -7, 0, 0⟩ 10 3 initCounter rfl (by decide) (by decide)

/-- Claim C7: the source's case label for the Zipf branch is the literal
`"zipfan"`, so the documented distribution name `"zipfian"` falls through to
the `log.Fatalf` default branch and is rejected as an unknown distribution,
while the misspelt `"zipfan"` is what actually draws from the Zipf
generator. -/
theorem claim_C7_zipfian_rejected :
    next ⟨5, 1, 0, "zipfian", 100, 0⟩ initCounter ⟨0, 0, 0, 7, 0⟩ 0 = .fatal
    ∧ next ⟨5, 1, 0, "zipfan", 100, 0⟩ initCounter ⟨0, 0, 0, 7, 0⟩ 0
        = .ok (7, initCounter) := by
  exact ⟨rfl, rfl⟩

/-- Claim C10: `next()` is total on the `order`, `conflict` and `normal`
branches exactly under the precondition `K ≥ 1`.  With `K ≥ 1` these
branches produce a key (for `normal`, with enough fuel for the folding
loops); with `K = 0`, `order` panics on `(counter+1) % 0`, `conflict` panics
on its non-hot branch, and the first folding loop of `normal` never
terminates on a negative draw (it yields `noFuel` for every fuel bound). -/
theorem claim_C10_totality :
    (∀ (c : Bconfig) (counter : Int) (d : Draws), 1 ≤ c.K →
      (c.Distribution = "order" ∨ c.Distribution = "conflict" ∨
        c.Distribution = "normal") →
      ∃ (fuel : Nat) (k st' : Int), next c counter d fuel = .ok (k, st'))
    ∧ (∀ (c : Bconfig) (counter : Int) (d : Draws) (fuel : Nat),
      c.K = 0 → c.Distribution = "order" → next c counter d fuel = .crash)
    ∧ (∀ (c : Bconfig) (counter : Int) (d : Draws) (fuel : Nat),
      c.K = 0 → c.Distribution = "conflict" → c.Conflicts ≤ d.intn100 →
      next c counter d fuel = .crash)
    ∧ (∀ (c : Bconfig) (counter : Int) (d : Draws) (fuel : Nat),
      c.K = 0 → c.Distribution = "normal" → d.normInt < 0 →
      next c counter d fuel = .noFuel) := by
  refine ⟨?_, ?_, ?_, ?_⟩
  · rintro c counter d hK (hdist | hdist | hdist)
    · have hKne : c.K ≠ 0 := by omega
      exact ⟨0, (counter + 1).tmod c.K + c.Min, (counter + 1).tmod c.K,
        by simp [next, hdist, goMod, hKne]⟩
    · by_cases hc : d.intn100 < c.Conflicts
      · exact ⟨0, 0, counter, by simp [next, hdist, hc]⟩
      · have hKne : c.K ≠ 0 := by omega
        exact ⟨0, (counter + 1).tmod c.K + c.Min, (counter + 1).tmod c.K,
          by simp [next, hdist, hc, goMod, hKne]⟩
    · obtain ⟨fuel, k1, k2, h1, h2⟩ := foldBoth_terminate (K := c.K)
        (z := d.normInt) hK
      exact ⟨fuel, k2, counter, by simp [next, hdist, h1, h2]⟩
  · intro c counter d fuel hK0 hdist
    simp [next, hdist, goMod, hK0]
  · intro c counter d fuel hK0 hdist hcon
    simp [next, hdist, goMod, hK0, show ¬ d.intn100 < c.Conflicts by omega]
  · intro c counter d fuel hK0 hdist hneg
    simp [next, hdist, hK0, foldAdd_zero_diverges hneg fuel]

/-- Claim C10, witness: concrete instances of all four parts at `K = 3`
resp. `K = 0`. -/
theorem claim_C10_witness :
    (∃ (fuel : Nat) (k st' : Int),
      next ⟨3, 1, 0, "order", 100, 0⟩ 0 ⟨0, 0, 0, 0, 0⟩ fuel = .ok (k, st'))
    ∧ next ⟨0, 1, 0, "order", 100, 0⟩ 0 ⟨0, 0, 0, 0, 0⟩ 0 = .crash
    ∧ next ⟨0, 1, 0, "conflict", 100, 0⟩ 0 ⟨0, 100, 0, 0, 0⟩ 0 = .crash
    ∧ next ⟨0, 1, 0, "normal", 100, 0⟩ 0 ⟨0, 0, -5, 0, 0⟩ 7 = .noFuel := by
  refine ⟨?_, ?_, ?_, ?_⟩
  · exact claim_C10_totality.1 _ 0 _ (by decide) (Or.inl rfl)
  · exact claim_C10_totality.2.1 _ 0 _ 0 rfl rfl
  · exact claim_C10_totality.2.2.1 _ 0 _ 0 rfl rfl (by decide)
  · exact claim_C10_totality.2.2.2 _ 0 _ 7 rfl rfl (by decide)

/-- Claim C1, evaluated at the failing input: a run that submits one key whose
external `Write` fails.  The worker's error branch sets the sentinel end
timestamp and logs the error without sending on `result`, and `collect` calls
`wait.Done()` only per received latency — so the failed operation is logged,
marked incomplete and excluded from latency, but it resolves the completion
barrier zero times, not once: one key was submitted, zero operations
resolved, and the barrier can never release. -/
theorem claim_C1_failed_write_never_resolves :
    workerRun false [⟨true, true⟩]
        = [⟨true, false, true⟩]
      ∧ barrierResolutions (workerRun false [⟨true, true⟩]) = 0
      ∧ [(⟨true, true⟩ : WorkerOp)].length = 1
      ∧ barrierResolutions (workerRun false [⟨true, true⟩])
          ≠ [(⟨true, true⟩ : WorkerOp)].length := by
  decide

/-- Claim C2, evaluated on the time-based branch: in `Run` with `T > 0` the
orchestrator's action sequence after the timer `break` goes directly from the
submissions to `db.Stop()`, `close(keys)` and `Statistic(b.latency)` — it
reports statistics while never executing `b.wait.Wait()`, i.e. it does not
wait for submitted operations to resolve. -/
theorem claim_C2_no_drain_before_stats (subs : List (Int × Int)) :
    Event.reportStats ∈ runEvents true subs
    ∧ Event.waitBarrier ∉ runEvents true subs := by
  constructor
  · simp [runEvents]
  · simp [runEvents]

/-- Claim C2, witness: a concrete time-based trace with one submission:
statistics are reported while the barrier is never awaited. -/
theorem claim_C2_witness :
    Event.reportStats ∈ runEvents true [(5, 0)]
    ∧ Event.waitBarrier ∉ runEvents true [(5, 0)] :=
  claim_C2_no_drain_before_stats [(5, 0)]

/-- Claim C3, evaluated at the failing input `Load` with `K = 2`: because
`b.globalCouner++` is commented out in `Load`, every `Load` submission sends
the initial value `-1`, so the sequence numbers are `[-1, -1]` — duplicated,
not strictly increasing, not in 1:1 correspondence with the keys.  The `Run`
phase, by contrast, does send the strictly increasing gap-free `0, 1, 2, …`. -/
theorem claim_C3_load_seqnums_constant :
    loadSeqNums ⟨2, 1, 0, "order", 100, 0⟩ = [-1, -1]
    ∧ ¬ List.Pairwise (fun a b => a < b) (loadSeqNums ⟨2, 1, 0, "order", 100, 0⟩)
    ∧ runSeqNums 3 = [0, 1, 2]
    ∧ List.Pairwise (fun a b => a < b) (runSeqNums 3) := by
  refine ⟨rfl, by decide, rfl, by decide⟩

/-- Claim C8: the `Load` phase forces the write ratio to `1` and the throttle
to `0`, submits exactly the keys of `[Min, Min+K)` (each exactly once, since
the submission list is strictly increasing), in strictly increasing order,
and under the forced ratio every draw `u ∈ [0, 1)` of `rand.Float64()` takes
the write path. -/
theorem claim_C8_load_phase (c : Bconfig) :
    (loadConfig c).W = 1
    ∧ (loadConfig c).Throttle = 0
    ∧ (∀ k : Int, k ∈ loadSubmittedKeys (loadConfig c) ↔
        c.Min ≤ k ∧ k < c.Min + c.K)
    ∧ List.Pairwise (fun a b => a < b) (loadSubmittedKeys (loadConfig c))
    ∧ (∀ u : Rat, 0 ≤ u → u < 1 → takesWritePath (loadConfig c).W u = true) := by
  refine ⟨rfl, rfl, ?_, ?_, ?_⟩
  · intro k
    simp only [loadConfig, loadSubmittedKeys, List.mem_map, List.mem_range]
    constructor
    · rintro ⟨i, hi, rfl⟩
      omega
    · rintro ⟨h1, h2⟩
      exact ⟨(k - c.Min).toNat, by omega, by omega⟩
  · rw [loadSubmittedKeys, List.pairwise_map]
    refine (List.pairwise_lt_range _).imp ?_
    intro a b hab
    omega
  · intro u h0 h1
    simp [takesWritePath, loadConfig, h1]

/-- Claim C8, witness: for `K = 2`, `Min = 10`, the key `11` is submitted (it
lies in `[10, 12)`), the forced ratio is `1`, and the draw `1/2` takes the
write path. -/
theorem claim_C8_witness :
    (loadConfig ⟨2, 0, 5, "order", 100, 10⟩).W = 1
    ∧ ((11 : Int) ∈ loadSubmittedKeys (loadConfig ⟨2, 0, 5, "order", 100, 10⟩)
        ↔ (10 : Int) ≤ 11 ∧ (11 : Int) < 10 + 2)
    ∧ takesWritePath (loadConfig ⟨2, 0, 5, "order", 100, 10⟩).W (1 / 2)
        = true := by
  have h := claim_C8_load_phase ⟨2, 0, 5, "order", 100, 10⟩
  exact ⟨h.1, h.2.2.1 11, h.2.2.2.2 (1 / 2) (by norm_num) (by norm_num)⟩

/-- Claim C9: the worker's `err` variable is declared outside its key loop and
assigned only on the write path, so after a failed write, any later read
no-op on the same worker with only failing writes (or none) in between takes
the error branch: its record carries the sentinel end timestamp, logs the
stale error, and sends no latency — hence never resolves the completion
barrier — even though the read performed no failing call. -/
theorem claim_C9_sticky_error (pre mid : List WorkerOp) (w r : WorkerOp)
    (hw : w.isWrite = true) (hf : w.writeFails = true)
    (hmid : ∀ o ∈ mid, o.isWrite = true → o.writeFails = true)
    (hr : r.isWrite = false) :
    workerRun false (pre ++ w :: mid ++ [r])
      = workerRun false (pre ++ w :: mid) ++ [⟨true, false, true⟩] := by
  have hsplit : pre ++ w :: mid ++ [r] = (pre ++ w :: mid) ++ [r] := by
    simp
  rw [hsplit, workerRun_append]
  have herr : errAfterOps false (pre ++ w :: mid) = true := by
    unfold errAfterOps
    rw [List.foldl_append, List.foldl_cons]
    have hw' : errAfterOp (List.foldl errAfterOp false pre) w = true := by
      unfold errAfterOp
      rw [hw]
      exact hf
    rw [hw']
    exact errAfterOps_sticky hmid
  rw [herr]
  simp [workerRun, errAfterOp, hr]

/-- Claim C9, witness: a failed write immediately followed by a read no-op on
the same worker: the read's record is the error-branch record. -/
theorem claim_C9_witness :
    workerRun false ([] ++ (⟨true, true⟩ : WorkerOp) :: [] ++ [⟨false, false⟩])
      = workerRun false ([] ++ (⟨true, true⟩ : WorkerOp) :: [])
        ++ [⟨true, false, true⟩] := by
  exact claim_C9_sticky_error [] [] ⟨true, true⟩ ⟨false, false⟩ rfl rfl
    (by intro o ho; simp at ho) rfl

/-- Claim C4: in every reachable state of the `Run` submission pipeline — for
any `keys`-channel capacity and any interleaving of orchestrator and worker
steps — every external `Write` invocation performed so far received exactly
the sequence number assigned at generation time to the key instance it
carries, and the key value generated for that instance: the (key, sequence)
pairing is preserved end-to-end. -/
theorem claim_C4_pairing (C : Nat) (keyOf : Nat → Int) (s : RunState)
    (h : ReachableRun C keyOf s) :
    ∀ w ∈ s.writes, w.seq = (w.idx : Int) ∧ w.key = keyOf w.idx :=
  (runInv_reachable h).2.2

/-- Claim C4, witness: with capacity `1` and key values `keyOf = fun i => 9`,
the three-step execution sendKey → dequeueWrite → rendezvous reaches a state
whose single `Write` call is `⟨0, 9, 0⟩`, and the pairing theorem applies to
it. -/
theorem claim_C4_witness :
    (⟨0, 9, 0⟩ : WriteCall).seq = ((⟨0, 9, 0⟩ : WriteCall).idx : Int)
    ∧ (⟨0, 9, 0⟩ : WriteCall).key
        = (fun _ : Nat => (9 : Int)) (⟨0, 9, 0⟩ : WriteCall).idx := by
  have h1 : RunStep 1 (fun _ => 9) ⟨0, false, [], [], []⟩
      ⟨1, true, [0], [], []⟩ :=
    RunStep.sendKey 0 [] [] [] (by decide)
  have h2 : RunStep 1 (fun _ => 9) ⟨1, true, [0], [], []⟩
      ⟨1, true, [], [0], []⟩ :=
    RunStep.dequeueWrite 1 true 0 [] [] []
  have h3 : RunStep 1 (fun _ => 9) ⟨1, true, [], [0], []⟩
      ⟨1, false, [], [], [⟨0, 9, 0⟩]⟩ :=
    RunStep.rendezvous 1 [] 0 [0] [] (by simp)
  have hreach : ReachableRun 1 (fun _ => 9) ⟨1, false, [], [], [⟨0, 9, 0⟩]⟩ :=
    Relation.ReflTransGen.tail
      (Relation.ReflTransGen.tail (Relation.ReflTransGen.single h1) h2) h3
  exact claim_C4_pairing 1 (fun _ => 9) ⟨1, false, [], [], [⟨0, 9, 0⟩]⟩ hreach
    ⟨0, 9, 0⟩ (by simp)

end BigBFT
